import Mathlib

/-!
Verification of the reassembly buffer and chunked command transport of
`src/shell.py`, a BLE OBD-II interactive shell.

Bytes are modelled as `Nat` (each value below 256 in practice; no arithmetic
on byte values occurs in the code, so no truncation is needed), byte strings
as `List Nat`, and the mutable `MultiFrameBuffer` object as a record threaded
through explicitly.  Each Python method becomes a pure Lean function returning
the new record (plus the return value for `extract`).
-/

namespace Shell

/-- State of `MultiFrameBuffer` (src/shell.py lines 10-14): `buffer` holds the
bytes accumulated so far, `expected_length` is `none` when idle, and
`current_length` counts bytes received so far. -/
structure MultiFrameBuffer where
  buffer : List Nat
  expected_length : Option Nat
  current_length : Nat
  deriving Repr, DecidableEq

/-- `MultiFrameBuffer.__init__` (lines 11-14): empty buffer, no expected
length, zero bytes received. -/
def MultiFrameBuffer.init : MultiFrameBuffer :=
  { buffer := [], expected_length := none, current_length := 0 }

/-- `MultiFrameBuffer.append` (lines 16-35).  Empty data is ignored.  When
idle, the frame's length becomes the expected length, the data is extended
onto the buffer, and `current_length` is assigned (not incremented) to the
frame length.  When accumulating, the data is appended and `current_length`
is incremented. -/
def MultiFrameBuffer.append (s : MultiFrameBuffer) (data : List Nat) :
    MultiFrameBuffer :=
  if data.length = 0 then s
  else
    match s.expected_length with
    | none =>
        { buffer := s.buffer ++ data
          expected_length := some data.length
          current_length := data.length }
    | some _ =>
        { s with
          buffer := s.buffer ++ data
          current_length := s.current_length + data.length }

/-- `MultiFrameBuffer.is_complete` (lines 37-42):
`expected_length is not None and current_length >= expected_length`. -/
def MultiFrameBuffer.is_complete (s : MultiFrameBuffer) : Bool :=
  match s.expected_length with
  | none => false
  | some e => decide (e ≤ s.current_length)

/-- `MultiFrameBuffer.reset` (lines 54-61): fresh empty state. -/
def MultiFrameBuffer.reset (_ : MultiFrameBuffer) : MultiFrameBuffer :=
  { buffer := [], expected_length := none, current_length := 0 }

/-- `MultiFrameBuffer.extract` (lines 44-52): `None` when not complete,
otherwise the first `expected_length` bytes of the buffer together with the
reset state.  (The slice `buffer[:expected_length]` is only taken on the
complete path, where `expected_length` is necessarily `some`.) -/
def MultiFrameBuffer.extract (s : MultiFrameBuffer) :
    Option (List Nat) × MultiFrameBuffer :=
  if s.is_complete then
    (some (s.buffer.take (s.expected_length.getD 0)), s.reset)
  else (none, s)

/-- One user-visible effect of the outbound path, in program order:
`writing c` is the "Writing chunk" log line of `write_in_chunks` (line 128),
`attempt c` is the `write_gatt_char` call of `write_with_response` (line 115),
`success c` / `error c` are the log lines of its `try`/`except` (lines
116-118). -/
inductive Event where
  | writing (c : List Nat)
  | attempt (c : List Nat)
  | success (c : List Nat)
  | error (c : List Nat)
  deriving Repr, DecidableEq

/-- `write_with_response` (lines 110-118), with the transport's acknowledgment
outcome for this write supplied as `ok`.  The write is attempted; on success a
success line is logged, on failure the exception is caught and an error line
is logged.  Nothing is raised to the caller in either case. -/
def write_with_response (ok : Bool) (data : List Nat) : List Event :=
  Event.attempt data :: if ok then [Event.success data] else [Event.error data]

/-- The chunk sequence of the loop `for i in range(0, len(data), cap)`
producing `data[i:i+cap]` (lines 126-127), computed with structural recursion
on a fuel initialised to `data.length`.  A step `cap = 0` would raise
`ValueError` in Python; it is modelled as producing no chunks and is excluded
by hypothesis wherever it matters. -/
def chunksOfAux : Nat → Nat → List Nat → List (List Nat)
  | _, _, [] => []
  | 0, _, _ :: _ => []
  | fuel + 1, cap, d :: ds => ((d :: ds).take cap) :: chunksOfAux fuel cap ((d :: ds).drop cap)

/-- The chunks written by `write_in_chunks` for payload `data` at capacity
`cap`. -/
def chunksOf (cap : Nat) (data : List Nat) : List (List Nat) :=
  if cap = 0 then [] else chunksOfAux data.length cap data

/-- The chunk loop of `write_in_chunks` (lines 126-130): for the `i`-th chunk
(0-based), log the chunk, call `write_with_response` with that write's
acknowledgment outcome `ack i`, then pace.  `ack : Nat → Bool` models which of
the successive writes the transport acknowledges. -/
def writeChunksGo (ack : Nat → Bool) : Nat → List (List Nat) → List Event
  | _, [] => []
  | i, c :: cs =>
      (Event.writing c :: write_with_response (ack i) c) ++ writeChunksGo ack (i + 1) cs

/-- `write_in_chunks` (lines 121-130): split `data` at capacity `cap` and run
the write loop. -/
def write_in_chunks (ack : Nat → Bool) (cap : Nat) (data : List Nat) : List Event :=
  writeChunksGo ack 0 (chunksOf cap data)

/-- The sub-sequence of chunks actually handed to the transport (the
`attempt` events of a trace, in order). -/
def attemptsOf : List Event → List (List Nat)
  | [] => []
  | Event.attempt c :: es => c :: attemptsOf es
  | _ :: es => attemptsOf es

/-- UTF-8 encoding of a character sequence, as a byte (`Nat`) list. -/
def utf8Bytes (s : List Char) : List Nat :=
  (s.flatMap String.utf8EncodeChar).map UInt8.toNat

/-- The byte payload built by `interactive_shell` (line 174):
`(command + "\r").encode("utf-8")`. -/
def command_bytes (command : List Char) : List Nat :=
  utf8Bytes (command ++ ['\r'])

/-- One command sent through `interactive_shell` (lines 174-176): the
terminated, encoded payload is written in chunks at the capacity
`client.mtu_size - 3` computed on line 125. -/
def interactive_send (ack : Nat → Bool) (mtu : Nat) (command : List Char) :
    List Event :=
  write_in_chunks ack (mtu - 3) (command_bytes command)

/-- The reachable-state invariant of the buffer: `current_length` mirrors the
buffer's length, and the buffer is idle (`expected_length = none`) exactly
when it holds no bytes. -/
def Inv (s : MultiFrameBuffer) : Prop :=
  s.current_length = s.buffer.length ∧ (s.expected_length = none ↔ s.buffer = [])

theorem inv_init : Inv MultiFrameBuffer.init := by
  refine ⟨rfl, ?_⟩
  simp [MultiFrameBuffer.init]

theorem inv_append (s : MultiFrameBuffer) (d : List Nat) (h : Inv s) :
    Inv (s.append d) := by
  obtain ⟨h1, h2⟩ := h
  by_cases hd : d.length = 0
  · simpa [MultiFrameBuffer.append, hd] using ⟨h1, h2⟩
  · have hd' : d ≠ [] := fun hnil => hd (by simp [hnil])
    cases he : s.expected_length with
    | none =>
        have hb : s.buffer = [] := h2.mp he
        simp [MultiFrameBuffer.append, hd, he, Inv, hb, hd']
    | some e =>
        have hb : s.buffer ≠ [] := fun hnil => by
          have := h2.mpr hnil
          rw [he] at this
          exact Option.noConfusion this
        simp [MultiFrameBuffer.append, hd, he, Inv, h1, hb]

theorem inv_reset (s : MultiFrameBuffer) : Inv s.reset := by
  refine ⟨rfl, ?_⟩
  simp [MultiFrameBuffer.reset]

theorem inv_extract (s : MultiFrameBuffer) (h : Inv s) : Inv (s.extract).2 := by
  by_cases hc : s.is_complete
  · simp only [MultiFrameBuffer.extract, hc, if_true]
    exact inv_reset s
  · simpa [MultiFrameBuffer.extract, hc] using h

/-- On an accumulating buffer, `append` concatenates and keeps the expected
length (also for empty frames, which change nothing). -/
theorem append_accumulating (s : MultiFrameBuffer) (e : Nat)
    (hs : s.expected_length = some e) (d : List Nat) :
    (s.append d).buffer = s.buffer ++ d ∧
    (s.append d).expected_length = some e ∧
    (s.append d).current_length = s.current_length + d.length := by
  by_cases hd : d.length = 0
  · have hnil : d = [] := List.length_eq_zero.mp hd
    simp [MultiFrameBuffer.append, hd, hnil, hs]
  · simp [MultiFrameBuffer.append, hd, hs]

/-- A sequence of `append` calls, in arrival order. -/
def appendAll (s : MultiFrameBuffer) (frames : List (List Nat)) :
    MultiFrameBuffer :=
  frames.foldl MultiFrameBuffer.append s

theorem appendAll_accumulating (frames : List (List Nat)) :
    ∀ (s : MultiFrameBuffer) (e : Nat), s.expected_length = some e →
      (appendAll s frames).buffer = s.buffer ++ frames.flatten ∧
      (appendAll s frames).expected_length = some e ∧
      (appendAll s frames).current_length =
        s.current_length + frames.flatten.length := by
  induction frames with
  | nil => intro s e hs; simp [appendAll, hs]
  | cons d ds ih =>
      intro s e hs
      obtain ⟨hb, he, hl⟩ := append_accumulating s e hs d
      obtain ⟨ihb, ihe, ihl⟩ := ih (s.append d) e he
      refine ⟨?_, ihe, ?_⟩
      · simp [appendAll] at ihb ⊢
        rw [ihb, hb, List.append_assoc]
      · simp [appendAll] at ihl ⊢
        rw [ihl, hl]
        omega

theorem flatten_filter_nonempty (frames : List (List Nat)) :
    (frames.filter (fun d => !d.isEmpty)).flatten = frames.flatten := by
  induction frames with
  | nil => rfl
  | cons d ds ih =>
      by_cases hd : d = []
      · simp [hd, List.filter, ih]
      · have hne : d.isEmpty = false := by simpa [List.isEmpty_iff] using hd
        simp [List.filter, hne, ih]

/-- C2: `extract()` returns `None` when the buffer is not complete; when
complete it returns exactly the first `expected_length` bytes of the
accumulated data (surplus discarded) and leaves the buffer equal to a
freshly constructed one. -/
theorem claimC2_extract (s : MultiFrameBuffer) :
    (s.is_complete = false → s.extract = (none, s)) ∧
    ∀ e, s.expected_length = some e → s.is_complete = true →
      s.extract = (some (s.buffer.take e), MultiFrameBuffer.init) := by
  constructor
  · intro h
    simp [MultiFrameBuffer.extract, h]
  · intro e he hc
    simp [MultiFrameBuffer.extract, hc, he, MultiFrameBuffer.reset,
      MultiFrameBuffer.init]

/-- Witness for C2 at a complete two-byte buffer and at the fresh buffer. -/
theorem claimC2_witness :
    (MultiFrameBuffer.init.append [1, 2]).extract =
      (some [1, 2], MultiFrameBuffer.init) ∧
    MultiFrameBuffer.init.extract = (none, MultiFrameBuffer.init) := by
  constructor
  · have h := (claimC2_extract (MultiFrameBuffer.init.append [1, 2])).2 2
      (by decide) (by decide)
    simpa [MultiFrameBuffer.append, MultiFrameBuffer.init] using h
  · exact (claimC2_extract MultiFrameBuffer.init).1 (by decide)

/-- C3: `is_complete()` is true iff `expected_length` is set and
`current_length` has reached it; in particular strict over-delivery still
counts as complete. -/
theorem claimC3_is_complete (s : MultiFrameBuffer) :
    (s.is_complete = true ↔
      ∃ e, s.expected_length = some e ∧ e ≤ s.current_length) ∧
    ∀ e, s.expected_length = some e → e < s.current_length →
      s.is_complete = true := by
  constructor
  · cases he : s.expected_length with
    | none => simp [MultiFrameBuffer.is_complete, he]
    | some e => simp [MultiFrameBuffer.is_complete, he]
  · intro e he hlt
    simp [MultiFrameBuffer.is_complete, he]
    omega

/-- Witness for C3: a buffer expecting 2 bytes that received 3 is complete. -/
theorem claimC3_witness :
    ((MultiFrameBuffer.init.append [1, 2]).append [3]).is_complete = true :=
  (claimC3_is_complete _).2 2 (by decide) (by decide)

/-- C4: appending a non-empty frame to an idle buffer records its length as
the expected length and stores it verbatim; the buffer is then immediately
complete and `extract()` yields exactly that frame. -/
theorem claimC4_first_frame (s : MultiFrameBuffer) (hinv : Inv s)
    (hidle : s.expected_length = none) (d : List Nat) (hd : d ≠ []) :
    (s.append d).expected_length = some d.length ∧
    (s.append d).buffer = d ∧
    (s.append d).is_complete = true ∧
    (s.append d).extract = (some d, MultiFrameBuffer.init) := by
  have hb : s.buffer = [] := hinv.2.mp hidle
  have hd0 : ¬ d.length = 0 := by simpa using hd
  have hrec : s.append d =
      { buffer := d, expected_length := some d.length,
        current_length := d.length } := by
    simp [MultiFrameBuffer.append, hd0, hidle, hb]
  rw [hrec]
  refine ⟨rfl, rfl, by simp [MultiFrameBuffer.is_complete], ?_⟩
  simp [MultiFrameBuffer.extract, MultiFrameBuffer.is_complete,
    MultiFrameBuffer.reset, MultiFrameBuffer.init]

/-- Witness for C4: a single one-byte frame into the fresh buffer. -/
theorem claimC4_witness :
    (MultiFrameBuffer.init.append [7]).extract =
      (some [7], MultiFrameBuffer.init) :=
  (claimC4_first_frame MultiFrameBuffer.init inv_init rfl [7]
    (by decide)).2.2.2

/-- C7: appending an empty byte sequence changes nothing. -/
theorem claimC7_append_empty (s : MultiFrameBuffer) : s.append [] = s := rfl

/-- C8: construction, `append`, `extract` and `reset` all preserve the
invariant that `current_length` equals the buffer's length and that
`expected_length` is `none` exactly when the buffer is empty.
(`is_complete` is read-only in the model, so it preserves it trivially.) -/
theorem claimC8_invariant :
    Inv MultiFrameBuffer.init ∧
    (∀ (s : MultiFrameBuffer) (d : List Nat), Inv s → Inv (s.append d)) ∧
    (∀ s : MultiFrameBuffer, Inv s → Inv (s.extract).2) ∧
    (∀ s : MultiFrameBuffer, Inv s → Inv s.reset) :=
  ⟨inv_init, inv_append, inv_extract, fun s _ => inv_reset s⟩

/-- Witness for C8: the invariant transported across one append. -/
theorem claimC8_witness : Inv (MultiFrameBuffer.init.append [3]) :=
  claimC8_invariant.2.1 MultiFrameBuffer.init [3] claimC8_invariant.1

/-- C9: on an incomplete buffer, `extract()` returns `None` and mutates
nothing. -/
theorem claimC9_extract_incomplete (s : MultiFrameBuffer)
    (h : s.is_complete = false) : s.extract = (none, s) := by
  simp [MultiFrameBuffer.extract, h]

/-- Witness for C9 at the fresh (idle, incomplete) buffer. -/
theorem claimC9_witness :
    MultiFrameBuffer.init.extract = (none, MultiFrameBuffer.init) :=
  claimC9_extract_incomplete MultiFrameBuffer.init rfl

/-- C10: after a run of appends from the fresh state containing at least one
non-empty frame, the accumulated bytes are the in-order concatenation of all
frames (equivalently, of the non-empty ones), `current_length` matches, and
`expected_length` is the length of the first non-empty frame. -/
theorem claimC10_accumulation (frames : List (List Nat))
    (h : ∃ d ∈ frames, d ≠ []) :
    (appendAll MultiFrameBuffer.init frames).buffer = frames.flatten ∧
    (appendAll MultiFrameBuffer.init frames).buffer =
      (frames.filter (fun d => !d.isEmpty)).flatten ∧
    (appendAll MultiFrameBuffer.init frames).current_length =
      frames.flatten.length ∧
    ∃ d0, frames.find? (fun d => !d.isEmpty) = some d0 ∧
      (appendAll MultiFrameBuffer.init frames).expected_length =
        some d0.length := by
  induction frames with
  | nil => exact absurd h (by simp)
  | cons d ds ih =>
      by_cases hd : d = []
      · subst hd
        have h' : ∃ x ∈ ds, x ≠ [] := by
          obtain ⟨x, hx, hxne⟩ := h
          rcases List.mem_cons.mp hx with rfl | hx'
          · exact absurd rfl hxne
          · exact ⟨x, hx', hxne⟩
        obtain ⟨ih1, ih2, ih3, d0, ihf, ihe⟩ := ih h'
        refine ⟨?_, ?_, ?_, d0, ?_, ?_⟩
        · simpa [appendAll] using ih1
        · simpa [appendAll, List.filter] using ih2
        · simpa [appendAll] using ih3
        · simpa [List.find?] using ihf
        · simpa [appendAll] using ihe
      · have hd0 : ¬ d.length = 0 := by simpa using hd
        have hrec : MultiFrameBuffer.init.append d =
            { buffer := d, expected_length := some d.length,
              current_length := d.length } := by
          simp [MultiFrameBuffer.append, hd0, MultiFrameBuffer.init]
        have hstep : appendAll MultiFrameBuffer.init (d :: ds) =
            appendAll (MultiFrameBuffer.init.append d) ds := rfl
        obtain ⟨hb, he, hl⟩ := appendAll_accumulating ds
          (MultiFrameBuffer.init.append d) d.length (by rw [hrec])
        rw [hstep]
        refine ⟨?_, ?_, ?_, d, ?_, he⟩
        · rw [hb, hrec]
          simp
        · rw [hb, hrec]
          have : d.isEmpty = false := by simpa [List.isEmpty_iff] using hd
          simp [List.filter, this, flatten_filter_nonempty]
        · rw [hl, hrec]
          simp
        · have : d.isEmpty = false := by simpa [List.isEmpty_iff] using hd
          simp [List.find?, this]

/-- Witness for C10: frames `[[], [1,2], [3]]` accumulate to `[1,2,3]` with
expected length 2 (the first non-empty frame's length). -/
theorem claimC10_witness :
    (appendAll MultiFrameBuffer.init [[], [1, 2], [3]]).buffer = [1, 2, 3] ∧
    (appendAll MultiFrameBuffer.init [[], [1, 2], [3]]).expected_length =
      some 2 := by
  have h := claimC10_accumulation [[], [1, 2], [3]]
    ⟨[1, 2], by decide, by decide⟩
  constructor
  · rw [h.1]
    decide
  · obtain ⟨d0, hfind, hexp⟩ := h.2.2.2
    have hval : List.find? (fun d => !d.isEmpty) [[], [1, 2], [3]] =
        some [1, 2] := by decide
    obtain rfl : [1, 2] = d0 := Option.some.inj (hval.symm.trans hfind)
    simpa using hexp

theorem chunksOfAux_nil (fuel cap : Nat) : chunksOfAux fuel cap [] = [] := by
  cases fuel <;> rfl

theorem chunksOfAux_fuel (cap : Nat) (hc : 0 < cap) :
    ∀ fuel₁ fuel₂ data, data.length ≤ fuel₁ → data.length ≤ fuel₂ →
      chunksOfAux fuel₁ cap data = chunksOfAux fuel₂ cap data := by
  intro fuel₁
  induction fuel₁ with
  | zero =>
      intro fuel₂ data h1 _
      have : data = [] := List.length_eq_zero.mp (Nat.le_zero.mp h1)
      subst this
      simp [chunksOfAux_nil]
  | succ f ihf =>
      intro fuel₂ data h1 h2
      cases data with
      | nil => simp [chunksOfAux_nil]
      | cons d ds =>
          simp only [List.length_cons] at h1 h2
          cases fuel₂ with
          | zero => omega
          | succ g =>
              have hlen : ((d :: ds).drop cap).length ≤ f := by
                simp only [List.length_drop, List.length_cons]
                omega
              have hlen2 : ((d :: ds).drop cap).length ≤ g := by
                simp only [List.length_drop, List.length_cons]
                omega
              simp only [chunksOfAux]
              rw [ihf g _ hlen hlen2]

/-- Unfolding step of `chunksOf`, mirroring one iteration of the Python
loop. -/
theorem chunksOf_cons (cap : Nat) (hc : 0 < cap) (data : List Nat)
    (hd : data ≠ []) :
    chunksOf cap data = data.take cap :: chunksOf cap (data.drop cap) := by
  cases data with
  | nil => exact absurd rfl hd
  | cons d ds =>
      have hc0 : ¬ cap = 0 := Nat.pos_iff_ne_zero.mp hc
      simp only [chunksOf, hc0, if_false, List.length_cons, chunksOfAux]
      have hlen : ((d :: ds).drop cap).length ≤ ds.length := by
        simp only [List.length_drop, List.length_cons]
        omega
      exact congrArg _ (chunksOfAux_fuel cap hc ds.length
        ((d :: ds).drop cap).length _ hlen le_rfl)

theorem chunksOfAux_flatten (cap : Nat) (hc : 0 < cap) :
    ∀ fuel data, data.length ≤ fuel →
      (chunksOfAux fuel cap data : List (List Nat)).flatten = data := by
  intro fuel
  induction fuel with
  | zero =>
      intro data h1
      have : data = [] := List.length_eq_zero.mp (Nat.le_zero.mp h1)
      subst this
      rfl
  | succ f ihf =>
      intro data h1
      cases data with
      | nil => rfl
      | cons d ds =>
          simp only [List.length_cons] at h1
          have hlen : ((d :: ds).drop cap).length ≤ f := by
            simp only [List.length_drop, List.length_cons]
            omega
          simp only [chunksOfAux, List.flatten_cons, ihf _ hlen]
          exact List.take_append_drop cap (d :: ds)

theorem chunksOfAux_ne_nil (cap : Nat) (hc : 0 < cap) :
    ∀ fuel data, ∀ c ∈ chunksOfAux fuel cap data, c ≠ [] := by
  intro fuel
  induction fuel with
  | zero =>
      intro data c hcmem
      cases data <;> simp [chunksOfAux] at hcmem
  | succ f ihf =>
      intro data c hcmem
      cases data with
      | nil => simp [chunksOfAux] at hcmem
      | cons d ds =>
          simp only [chunksOfAux, List.mem_cons] at hcmem
          rcases hcmem with rfl | hcmem
          · have : 0 < ((d :: ds).take cap).length := by
              simp only [List.length_take, List.length_cons]
              omega
            exact List.ne_nil_of_length_pos this
          · exact ihf _ c hcmem

theorem chunksOfAux_length (cap : Nat) (hc : 0 < cap) :
    ∀ fuel data, data.length ≤ fuel → data ≠ [] →
      (chunksOfAux fuel cap data : List (List Nat)).length =
        (data.length - 1) / cap + 1 := by
  intro fuel
  induction fuel with
  | zero =>
      intro data h1 hd
      exact absurd (List.length_eq_zero.mp (Nat.le_zero.mp h1)) hd
  | succ f ihf =>
      intro data h1 hd
      cases data with
      | nil => exact absurd rfl hd
      | cons d ds =>
          simp only [List.length_cons] at h1
          have hlen : ((d :: ds).drop cap).length ≤ f := by
            simp only [List.length_drop, List.length_cons]
            omega
          by_cases hrest : (d :: ds).drop cap = []
          · have hlen0 := congrArg List.length hrest
            simp only [List.length_drop, List.length_nil,
              List.length_cons] at hlen0
            have hdiv : ((d :: ds).length - 1) / cap = 0 := by
              apply Nat.div_eq_of_lt
              simp only [List.length_cons]
              omega
            rw [hdiv]
            simp [chunksOfAux, hrest, chunksOfAux_nil]
          · have hcap : cap < (d :: ds).length := by
              by_contra hno
              simp only [List.length_cons] at hno
              exact hrest (List.drop_eq_nil_of_le
                (by simp only [List.length_cons]; omega))
            have ihr := ihf _ hlen hrest
            simp only [chunksOfAux, List.length_cons, ihr, List.length_drop]
            simp only [List.length_cons] at hcap
            have harith : ds.length + 1 - 1 =
                (ds.length + 1 - cap - 1) + cap := by omega
            rw [harith, Nat.add_div_right _ hc]

theorem chunksOfAux_sizes (cap : Nat) (hc : 0 < cap) :
    ∀ fuel data, data.length ≤ fuel →
      ∀ i (hi : i + 1 < (chunksOfAux fuel cap data : List (List Nat)).length),
        ((chunksOfAux fuel cap data).get
          ⟨i, Nat.lt_of_succ_lt hi⟩).length = cap := by
  intro fuel
  induction fuel with
  | zero =>
      intro data h1 i hi
      have : data = [] := List.length_eq_zero.mp (Nat.le_zero.mp h1)
      subst this
      simp [chunksOfAux_nil] at hi
  | succ f ihf =>
      intro data h1 i hi
      cases data with
      | nil => simp [chunksOfAux_nil] at hi
      | cons d ds =>
          simp only [List.length_cons] at h1
          have hlen : ((d :: ds).drop cap).length ≤ f := by
            simp only [List.length_drop, List.length_cons]
            omega
          cases i with
          | zero =>
              simp only [chunksOfAux, List.length_cons] at hi ⊢
              have hrest : chunksOfAux f cap ((d :: ds).drop cap) ≠ [] := by
                intro hz
                rw [hz] at hi
                simp at hi
              have hne : (d :: ds).drop cap ≠ [] :=
                fun hz => hrest (by rw [hz, chunksOfAux_nil])
              have hcap : cap < (d :: ds).length := by
                by_contra hno
                simp only [List.length_cons] at hno
                exact hne (List.drop_eq_nil_of_le
                  (by simp only [List.length_cons]; omega))
              simp only [List.get, List.length_take, List.length_cons]
              simp only [List.length_cons] at hcap
              omega
          | succ j =>
              simp only [chunksOfAux, List.length_cons,
                Nat.succ_lt_succ_iff] at hi ⊢
              exact ihf _ hlen j hi

/-- C5: for a non-empty payload and positive capacity, the chunk loop yields
`ceil(L/C)` chunks whose concatenation is the payload, every chunk is
non-empty, and every chunk except possibly the last has length exactly the
capacity. -/
theorem claimC5_chunking (cap : Nat) (hc : 0 < cap) (data : List Nat)
    (hd : data ≠ []) :
    (chunksOf cap data).length = (data.length + cap - 1) / cap ∧
    (chunksOf cap data).flatten = data ∧
    (∀ c ∈ chunksOf cap data, c ≠ []) ∧
    ∀ i (hi : i + 1 < (chunksOf cap data).length),
      ((chunksOf cap data).get ⟨i, Nat.lt_of_succ_lt hi⟩).length = cap := by
  have hc0 : ¬ cap = 0 := Nat.pos_iff_ne_zero.mp hc
  have hL : 0 < data.length := List.length_pos.mpr hd
  have hunf : chunksOf cap data = chunksOfAux data.length cap data := by
    simp [chunksOf, hc0]
  refine ⟨?_, ?_, ?_, ?_⟩
  · rw [hunf, chunksOfAux_length cap hc data.length data le_rfl hd]
    have : data.length + cap - 1 = (data.length - 1) + cap := by omega
    rw [this, Nat.add_div_right _ hc]
  · rw [hunf]
    exact chunksOfAux_flatten cap hc data.length data le_rfl
  · rw [hunf]
    exact chunksOfAux_ne_nil cap hc data.length data
  · intro i hi
    have hi' : i + 1 < (chunksOfAux data.length cap data).length :=
      hunf ▸ hi
    have hs := chunksOfAux_sizes cap hc data.length data le_rfl i hi'
    simp only [List.get_eq_getElem] at hs ⊢
    simp only [hunf]
    exact hs

/-- Witness for C5 at capacity 4 and a 10-byte payload: three chunks that
reassemble to the payload. -/
theorem claimC5_witness :
    (chunksOf 4 [0, 1, 2, 3, 4, 5, 6, 7, 8, 9]).length = 3 ∧
    (chunksOf 4 [0, 1, 2, 3, 4, 5, 6, 7, 8, 9]).flatten =
      [0, 1, 2, 3, 4, 5, 6, 7, 8, 9] := by
  have h := claimC5_chunking 4 (by decide) [0, 1, 2, 3, 4, 5, 6, 7, 8, 9]
    (by decide)
  refine ⟨?_, h.2.1⟩
  rw [h.1]
  decide

theorem attemptsOf_append (a b : List Event) :
    attemptsOf (a ++ b) = attemptsOf a ++ attemptsOf b := by
  induction a with
  | nil => rfl
  | cons e es ih => cases e <;> simp [attemptsOf, ih]

/-- Independently of which writes are acknowledged, the loop hands every
chunk, in order, to the transport. -/
theorem attemptsOf_writeChunksGo (ack : Nat → Bool) :
    ∀ (i : Nat) (cs : List (List Nat)),
      attemptsOf (writeChunksGo ack i cs) = cs := by
  intro i cs
  induction cs generalizing i with
  | nil => rfl
  | cons c cs ih =>
      simp only [writeChunksGo, attemptsOf_append, write_with_response]
      cases hok : ack i <;> simp [attemptsOf, ih]

theorem writeChunksGo_events (ack : Nat → Bool) :
    ∀ (cs : List (List Nat)) (i j : Nat) (c : List Nat),
      cs[j]? = some c →
        Event.attempt c ∈ writeChunksGo ack i cs ∧
        (ack (i + j) = false → Event.error c ∈ writeChunksGo ack i cs) := by
  intro cs
  induction cs with
  | nil => intro i j c hj; simp at hj
  | cons c0 cs ih =>
      intro i j c hj
      cases j with
      | zero =>
          obtain rfl : c0 = c := by simpa using hj
          constructor
          · simp [writeChunksGo, write_with_response]
          · intro hfail
            simp only [Nat.add_zero] at hfail
            simp [writeChunksGo, write_with_response, hfail]
      | succ j' =>
          have hj' : cs[j']? = some c := by simpa using hj
          obtain ⟨ha, he⟩ := ih (i + 1) j' c hj'
          have harith : i + 1 + j' = i + (j' + 1) := by omega
          constructor
          · simp [writeChunksGo, write_with_response, ha]
          · intro hfail
            rw [← harith] at hfail
            simp [writeChunksGo, write_with_response, he hfail]

/-- C1 counterexample: capacity 4, payload of 10 bytes, transport refusing to
acknowledge the second write.  The trace records the failure of the second
chunk `[4,5,6,7]`, yet the third chunk `[8,9]` is still attempted: the
remaining chunks of the command are not aborted. -/
theorem claimC1_counterexample :
    Event.error [4, 5, 6, 7] ∈
      write_in_chunks (fun i => decide (i ≠ 1)) 4 [0, 1, 2, 3, 4, 5, 6, 7, 8, 9] ∧
    Event.attempt [8, 9] ∈
      write_in_chunks (fun i => decide (i ≠ 1)) 4 [0, 1, 2, 3, 4, 5, 6, 7, 8, 9] := by
  decide

/-- C1 amended: `write_with_response` catches the acknowledgment failure and
only logs it, so `write_in_chunks` reports a failure event for the failing
chunk but does not abort — every chunk of the command is still handed to the
transport, in order, whatever the acknowledgment outcomes. -/
theorem claimC1_amended (ack : Nat → Bool) (cap : Nat) (data : List Nat) :
    attemptsOf (write_in_chunks ack cap data) = chunksOf cap data ∧
    ∀ j c, (chunksOf cap data)[j]? = some c → ack j = false →
      Event.error c ∈ write_in_chunks ack cap data := by
  constructor
  · exact attemptsOf_writeChunksGo ack 0 (chunksOf cap data)
  · intro j c hj hfail
    have h := (writeChunksGo_events ack (chunksOf cap data) 0 j c hj).2
    simp only [Nat.zero_add] at h
    exact h hfail

/-- Witness for C1 (amended) at the counterexample input: all three chunks
are attempted and the failing second chunk is reported. -/
theorem claimC1_witness :
    attemptsOf (write_in_chunks (fun i => decide (i ≠ 1)) 4
        [0, 1, 2, 3, 4, 5, 6, 7, 8, 9]) =
      [[0, 1, 2, 3], [4, 5, 6, 7], [8, 9]] ∧
    Event.error [4, 5, 6, 7] ∈
      write_in_chunks (fun i => decide (i ≠ 1)) 4
        [0, 1, 2, 3, 4, 5, 6, 7, 8, 9] := by
  have h := claimC1_amended (fun i => decide (i ≠ 1)) 4
    [0, 1, 2, 3, 4, 5, 6, 7, 8, 9]
  refine ⟨?_, h.2 1 [4, 5, 6, 7] (by decide) (by decide)⟩
  rw [h.1]
  decide

theorem utf8Bytes_append (a b : List Char) :
    utf8Bytes (a ++ b) = utf8Bytes a ++ utf8Bytes b := by
  simp [utf8Bytes]

theorem command_bytes_eq (command : List Char) :
    command_bytes command = utf8Bytes command ++ [13] := by
  rw [command_bytes, utf8Bytes_append]
  rfl

/-- C6: the payload written for a command is its UTF-8 encoding with exactly
one carriage-return byte (13) appended, and the chunks handed to the
transport are that payload split at capacity `mtu - 3`. -/
theorem claimC6_payload (ack : Nat → Bool) (mtu : Nat) (command : List Char) :
    command_bytes command = utf8Bytes command ++ [13] ∧
    attemptsOf (interactive_send ack mtu command) =
      chunksOf (mtu - 3) (utf8Bytes command ++ [13]) := by
  refine ⟨command_bytes_eq command, ?_⟩
  rw [interactive_send, write_in_chunks, attemptsOf_writeChunksGo,
    command_bytes_eq]

end Shell
